import Mathlib

/-!
Verification of two scripts of the icefall repository:
* `egs/librispeech/ASR/transducer/pretrained.py` — batched transducer
  inference (waveform loading, feature padding/batching, decoding dispatch,
  ordered transcript logging);
* `egs/mucs/ASR/local/compute_fbank_mucs.py` — resumable parallel
  feature-caching pipeline.

The Python code is shallowly embedded: pure computations become Lean
functions, fallible code returns `Except`, and the caching pipeline's
file-system effects become explicit state passing over a record of existing
paths, persisted artifacts and an event trace.  External collaborators
(kaldifeat's Fbank, the encoder, the search routines, the sentencepiece
detokenizer, lhotse's cut-set operations) are either function parameters or
opaque constructors recording exactly the arguments the scripts pass.
-/

namespace Pretrained

/-- `get_params()["sample_rate"]`: the globally expected sample rate. -/
def sample_rate : Nat := 16000

/-- `get_params()["feature_dim"]`: mel-bin count used for fbank features. -/
def feature_dim : Nat := 80

/-- A sound file as `torchaudio.load` presents it: a native sample rate and
a channel-major matrix of samples (`wave[c]` is channel `c`). -/
structure SoundFile where
  sampleRate : Nat
  channels : List (List ℚ)
deriving DecidableEq, Repr

/-- `read_sound_files(filenames, expected_sample_rate)`: loads each file in
order, asserts its native rate equals the expected rate (the assertion
failure aborts the whole call), and keeps only the first channel
(`wave[0]`). -/
def read_sound_files : List SoundFile → Nat → Except String (List (List ℚ))
  | [], _ => .ok []
  | f :: fs, expected =>
    if f.sampleRate = expected then
      match read_sound_files fs expected with
      | .ok ws => .ok (f.channels.headD [] :: ws)
      | .error e => .error e
    else
      .error ("expected sample rate: " ++ toString expected ++ ". Given: "
        ++ toString f.sampleRate)

/-- Longest frame count in a list of feature matrices (what
`pad_sequence` pads every matrix up to). -/
def maxLen (mats : List (List (List ℚ))) : Nat :=
  (mats.map List.length).foldr max 0

/-- `torch.nn.utils.rnn.pad_sequence(features, batch_first=True,
padding_value=v)` on matrices of shape `(lengthᵢ, dim)`: each matrix is
extended with whole rows filled with the padding value up to the longest
length in the batch. -/
def padSequence (dim : Nat) (v : ℚ) (mats : List (List (List ℚ))) :
    List (List (List ℚ)) :=
  mats.map (fun m => m ++ List.replicate (maxLen mats - m.length)
    (List.replicate dim v))

/-- `feature_lengths = [f.size(0) for f in features]`. -/
def featureLengths (mats : List (List (List ℚ))) : List Nat :=
  mats.map List.length

/-- One row of an encoder-output hidden-state sequence. -/
abbrev EncFrame := List ℚ

/-- `encoder_out[i:i+1, :encoder_out_lens[i]]` — the slice of the encoder
output handed to the search routine for utterance `i`. -/
def sliceAt (encOut : List (List EncFrame)) (encLens : List Nat) (i : Nat) :
    List EncFrame :=
  (encOut.getD i []).take (encLens.getD i 0)

/-- The token sequence the dispatched search routine produces for a slice,
with the two search routines as abstract collaborators. -/
def decodedTokens (gf : List EncFrame → List Nat)
    (bf : Nat → List EncFrame → List Nat)
    (method : String) (beam : Nat) (e : List EncFrame) : List Nat :=
  if method = "greedy_search" then gf e else bf beam e

/-- The `if/elif/else` dispatch in `main`'s per-utterance loop: greedy
search, beam search, or `ValueError("Unsupported method: ...")`. -/
def decodeOne (gf : List EncFrame → List Nat)
    (bf : Nat → List EncFrame → List Nat)
    (method : String) (beam : Nat) (e : List EncFrame) :
    Except String (List Nat) :=
  if method = "greedy_search" then .ok (gf e)
  else if method = "beam_search" then .ok (bf beam e)
  else .error ("Unsupported method: " ++ method)

/-- `for i in range(num_waves): ... hyps.append(...)`: utterances are
dispatched in order; a raised `ValueError` aborts the loop, discarding all
hypotheses already decoded. -/
def decodeLoop (gf : List EncFrame → List Nat)
    (bf : Nat → List EncFrame → List Nat)
    (method : String) (beam : Nat) :
    List (List EncFrame) → Except String (List (List Nat))
  | [] => .ok []
  | e :: es =>
    match decodeOne gf bf method beam e with
    | .error msg => .error msg
    | .ok h =>
      match decodeLoop gf bf method beam es with
      | .error msg => .error msg
      | .ok hs => .ok (h :: hs)

/-- The tail of `main` from the encoder output onwards: slice per
utterance, dispatch decoding, detokenize (`sp.decode(hyp).split()`, the
abstract `dw`), and zip the word lists with the file names into the logged
blocks.  The final `logging.info(s)` runs only when no exception was
raised, so the logged output is the `.ok` payload. -/
def loggedBlocks (gf : List EncFrame → List Nat)
    (bf : Nat → List EncFrame → List Nat)
    (dw : List Nat → List String)
    (method : String) (beam : Nat) (names : List String)
    (encOut : List (List EncFrame)) (encLens : List Nat) :
    Except String (List (String × List String)) :=
  match decodeLoop gf bf method beam
      ((List.range encOut.length).map (sliceAt encOut encLens)) with
  | .error e => .error e
  | .ok hyps => .ok (names.zip (hyps.map dw))

/-- `main` from waveform loading onwards, with the external capabilities
(fbank, the batched encoder, the search routines, the detokenizer) as
parameters.  Waveform loading happens first; feature extraction, padding,
encoding and decoding run only if every file passed the sample-rate
assertion. -/
def mainInference (fbankF : List ℚ → List (List ℚ))
    (encF : List (List (List ℚ)) → List Nat →
      List (List EncFrame) × List Nat)
    (gf : List EncFrame → List Nat)
    (bf : Nat → List EncFrame → List Nat)
    (dw : List Nat → List String)
    (padVal : ℚ) (method : String) (beam : Nat)
    (names : List String) (files : List SoundFile) :
    Except String (List (String × List String)) :=
  match read_sound_files files sample_rate with
  | .error e => .error e
  | .ok waves =>
    let features := waves.map fbankF
    let lens := featureLengths features
    let padded := padSequence feature_dim padVal features
    let (encOut, encLens) := encF padded lens
    loggedBlocks gf bf dw method beam names encOut encLens

end Pretrained

namespace ComputeFbankMucs

/-- The hard-coded `dataset_parts` tuple of `compute_fbank_mucs`. -/
def dataset_parts : List String := ["train", "test", "dev"]

/-- `f"{prefix}_cuts_{partition}.{suffix}"` with `prefix = "mucs"` and
`suffix = "jsonl.gz"`: the per-partition output artifact file name, whose
existence in the output directory is the completion signal. -/
def cutsFilename (p : String) : String := "mucs_cuts_" ++ p ++ ".jsonl.gz"

/-- `f"{output_dir}/{prefix}_feats_{partition}"`: the per-partition feature
storage location passed to `compute_and_store_features` (relative to the
output directory). -/
def featsStoragePath (p : String) : String := "mucs_feats_" ++ p

/-- `num_jobs = min(48, os.cpu_count())`: local worker-pool size. -/
def num_jobs (cpuCount : Nat) : Nat := min 48 cpuCount

/-- `num_jobs=num_jobs if ex is None else 80`: the number of parallel jobs
actually passed to `compute_and_store_features`, depending on whether
`get_executor()` supplied an external executor. -/
def effectiveNumJobs (hasExecutor : Bool) (cpuCount : Nat) : Nat :=
  if hasExecutor then 80 else num_jobs cpuCount

/-- A cut set as the script builds it, modelled by provenance: the lhotse
operations are opaque constructors recording exactly the arguments the
script passes (`CutSet.from_manifests`, `compute_and_store_features`,
`trim_to_supervisions(keep_overlapping=False, min_duration=None,
keep_all_channels=False)`). -/
inductive CutData
  | fromManifests (partition : String)
  | withFeatures (c : CutData) (storagePath : String) (numJobs : Nat)
  | trimmed (c : CutData) (keepOverlapping : Bool) (minDuration : Option ℚ)
      (keepAllChannels : Bool)
deriving DecidableEq, Repr

/-- Observable actions of one pipeline run. -/
inductive Event
  | loadBpe (path : String)
  | loadManifest (partition : String)
  | computeFeatures (partition : String) (numJobs : Nat)
  | trimToSupervisions (partition : String)
  | writeArtifact (path : String)
deriving DecidableEq, Repr

/-- Pipeline state: the set of existing file-system paths in the output
directory, the persisted cuts artifacts with their contents, and the trace
of actions performed. -/
structure FsState where
  files : List String
  artifacts : List (String × CutData)
  events : List Event
deriving DecidableEq, Repr

/-- The cut-set descriptor persisted for a processed partition: features
computed and stored, then trimmed to supervisions with
`keep_overlapping=False, min_duration=None, keep_all_channels=False`. -/
def persistedCutData (hasExecutor : Bool) (cpuCount : Nat) (p : String) :
    CutData :=
  .trimmed (.withFeatures (.fromManifests p) (featsStoragePath p)
    (effectiveNumJobs hasExecutor cpuCount)) false none false

/-- The four statements of the loop body's else-path, in program order:
`CutSet.from_manifests`, `compute_and_store_features` (which writes the
feature storage), `trim_to_supervisions`, `cut_set.to_file`. -/
inductive Step
  | buildCutSet
  | computeFeats
  | trimStep
  | writeCuts
deriving DecidableEq, Repr

def partitionSteps : List Step :=
  [.buildCutSet, .computeFeats, .trimStep, .writeCuts]

/-- Effect of one statement of the loop body on the pipeline state. -/
def applyStep (hasExecutor : Bool) (cpuCount : Nat) (p : String)
    (st : FsState) : Step → FsState
  | .buildCutSet => st
  | .computeFeats =>
    { st with
      files := st.files ++ [featsStoragePath p]
      events := st.events ++
        [.computeFeatures p (effectiveNumJobs hasExecutor cpuCount)] }
  | .trimStep => { st with events := st.events ++ [.trimToSupervisions p] }
  | .writeCuts =>
    { st with
      files := st.files ++ [cutsFilename p]
      artifacts := st.artifacts ++
        [(cutsFilename p, persistedCutData hasExecutor cpuCount p)]
      events := st.events ++ [.writeArtifact (cutsFilename p)] }

/-- The loop body's else-path interrupted after its first `k` statements
(`k = partitionSteps.length` is the uninterrupted run). -/
def runStepsUpto (hasExecutor : Bool) (cpuCount : Nat) (p : String)
    (st : FsState) (k : Nat) : FsState :=
  (partitionSteps.take k).foldl (applyStep hasExecutor cpuCount p) st

/-- One iteration of `for partition, m in manifests.items()`: skip when
`(output_dir / cuts_filename).is_file()`, otherwise run the full body. -/
def processPartition (hasExecutor : Bool) (cpuCount : Nat) (st : FsState)
    (p : String) : FsState :=
  if cutsFilename p ∈ st.files then st
  else partitionSteps.foldl (applyStep hasExecutor cpuCount p) st

/-- The `sp.load(bpe_model)` action guarded by `if bpe_model:`. -/
def bpeEvents : Option String → List Event
  | some b => [.loadBpe b]
  | none => []

/-- `compute_fbank_mucs(bpe_model, dataset)`: loads the tokenizer when
given, reads the manifests of all hard-coded partitions up front
(`read_manifests_if_cached(dataset_parts=dataset_parts, ...)`), then folds
the per-partition loop over the hard-coded partition list.  The `dataset`
argument is received but never read, exactly as in the source. -/
def compute_fbank_mucs (bpe_model : Option String) (dataset : Option String)
    (hasExecutor : Bool) (cpuCount : Nat)
    (files0 : List String) (artifacts0 : List (String × CutData)) : FsState :=
  dataset_parts.foldl (processPartition hasExecutor cpuCount)
    { files := files0
      artifacts := artifacts0
      events := bpeEvents bpe_model ++ dataset_parts.map Event.loadManifest }

end ComputeFbankMucs

namespace Pretrained

/-- Concrete two-utterance batch (lengths 1 and 2, feature dim 1) used to
exercise the padding invariant. -/
def c1mats : List (List (List ℚ)) := [[[2]], [[3], [4]]]

lemma length_le_maxLen : ∀ {mats : List (List (List ℚ))} {m : List (List ℚ)},
    m ∈ mats → m.length ≤ maxLen mats := by
  intro mats
  induction mats with
  | nil => intro m h; cases h
  | cons a l ih =>
    intro m h
    rcases List.mem_cons.mp h with rfl | h
    · simp [maxLen]
    · have := ih h
      simp only [maxLen, List.map_cons, List.foldr_cons] at *
      omega

lemma padSequence_getD (dim : Nat) (v : ℚ) (mats : List (List (List ℚ)))
    (i : Nat) (hi : i < mats.length) :
    (padSequence dim v mats).getD i [] =
      mats.getD i [] ++ List.replicate (maxLen mats - (mats.getD i []).length)
        (List.replicate dim v) := by
  have hlen : i < (padSequence dim v mats).length := by
    simpa [padSequence] using hi
  rw [List.getD_eq_getElem _ _ hlen, List.getD_eq_getElem _ _ hi]
  simp [padSequence]

lemma getD_mem {mats : List (List (List ℚ))} {i : Nat}
    (hi : i < mats.length) : mats.getD i [] ∈ mats := by
  rw [List.getD_eq_getElem _ _ hi]; exact List.getElem_mem hi

/-- C1: for every batch of feature matrices, `pad_sequence` with
`batch_first=True` and a fixed padding value leaves the first `lengthᵢ`
rows of utterance `i` exactly equal to its original feature matrix, fills
every row at index `≥ lengthᵢ` (up to the batch's maximal length) with the
sentinel value at every feature entry, and the recorded valid-length
vector `feature_lengths` lists each utterance's original frame count. -/
theorem padding_invariant (dim : Nat) (v : ℚ) (mats : List (List (List ℚ)))
    (i : Nat) (hi : i < mats.length) :
    ((padSequence dim v mats).getD i []).take (mats.getD i []).length
        = mats.getD i [] ∧
    ((padSequence dim v mats).getD i []).length = maxLen mats ∧
    (∀ t, (mats.getD i []).length ≤ t → t < maxLen mats →
      ((padSequence dim v mats).getD i []).getD t [] = List.replicate dim v ∧
      ∀ d, d < dim →
        (((padSequence dim v mats).getD i []).getD t []).getD d 0 = v) ∧
    featureLengths mats = mats.map List.length ∧
    (featureLengths mats).getD i 0 = (mats.getD i []).length := by
  have hle := length_le_maxLen (getD_mem hi)
  refine ⟨?_, ?_, ?_, rfl, ?_⟩
  · rw [padSequence_getD dim v mats i hi]
    exact List.take_left _ _
  · rw [padSequence_getD dim v mats i hi]
    simp only [List.length_append, List.length_replicate]
    omega
  · intro t ht1 ht2
    have hrow : ((padSequence dim v mats).getD i []).getD t []
        = List.replicate dim v := by
      rw [padSequence_getD dim v mats i hi]
      rw [List.getD_eq_getElem?_getD]
      rw [List.getElem?_append_right ht1]
      rw [List.getElem?_replicate]
      rw [if_pos (by omega)]
      rfl
    refine ⟨hrow, fun d hd => ?_⟩
    rw [hrow, List.getD_eq_getElem?_getD, List.getElem?_replicate, if_pos hd]
    rfl
  · have hi' : i < (mats.map List.length).length := by simpa using hi
    rw [featureLengths, List.getD_eq_getElem _ _ hi',
      List.getD_eq_getElem _ _ hi]
    simp

/-- Witness for C1 on a concrete two-utterance batch. -/
theorem padding_invariant_witness :
    0 < c1mats.length ∧
    (((padSequence 1 5 c1mats).getD 0 []).take (c1mats.getD 0 []).length
        = c1mats.getD 0 [] ∧
    ((padSequence 1 5 c1mats).getD 0 []).length = maxLen c1mats ∧
    (∀ t, (c1mats.getD 0 []).length ≤ t → t < maxLen c1mats →
      ((padSequence 1 5 c1mats).getD 0 []).getD t [] = List.replicate 1 5 ∧
      ∀ d, d < 1 →
        (((padSequence 1 5 c1mats).getD 0 []).getD t []).getD d 0 = 5) ∧
    featureLengths c1mats = c1mats.map List.length ∧
    (featureLengths c1mats).getD 0 0 = (c1mats.getD 0 []).length) :=
  ⟨by decide, padding_invariant 1 5 c1mats 0 (by decide)⟩

lemma decodeOne_valid (gf : List EncFrame → List Nat)
    (bf : Nat → List EncFrame → List Nat) (method : String) (beam : Nat)
    (e : List EncFrame)
    (hm : method = "greedy_search" ∨ method = "beam_search") :
    decodeOne gf bf method beam e
      = .ok (decodedTokens gf bf method beam e) := by
  rcases hm with rfl | rfl <;> simp [decodeOne, decodedTokens]

lemma decodeLoop_valid (gf : List EncFrame → List Nat)
    (bf : Nat → List EncFrame → List Nat) (method : String) (beam : Nat)
    (hm : method = "greedy_search" ∨ method = "beam_search") :
    ∀ es, decodeLoop gf bf method beam es
      = .ok (es.map (decodedTokens gf bf method beam)) := by
  intro es
  induction es with
  | nil => rfl
  | cons e es ih =>
    rw [decodeLoop, decodeOne_valid gf bf method beam e hm, ih]
    rfl

lemma decodeLoop_invalid (gf : List EncFrame → List Nat)
    (bf : Nat → List EncFrame → List Nat) (method : String) (beam : Nat)
    (e : List EncFrame) (es : List (List EncFrame))
    (h1 : method ≠ "greedy_search") (h2 : method ≠ "beam_search") :
    decodeLoop gf bf method beam (e :: es)
      = .error ("Unsupported method: " ++ method) := by
  rw [decodeLoop, decodeOne, if_neg h1, if_neg h2]

lemma zip_getD (l₁ : List String) (l₂ : List (List String)) (i : Nat)
    (h₁ : i < l₁.length) (h₂ : i < l₂.length) :
    (l₁.zip l₂).getD i ("", []) = (l₁.getD i "", l₂.getD i []) := by
  have hz : i < (l₁.zip l₂).length := by
    simp [List.length_zip]; omega
  rw [List.getD_eq_getElem _ _ hz, List.getD_eq_getElem _ _ h₁,
    List.getD_eq_getElem _ _ h₂]
  exact List.getElem_zip

/-- C2: with a valid decoding method, the run logs exactly one decoded
block per input file, in command-line order: block `i` pairs file name `i`
with the words decoded from the encoder-output slice of utterance `i`,
for every batch size (including 1) and every combination of lengths. -/
theorem output_order (gf : List EncFrame → List Nat)
    (bf : Nat → List EncFrame → List Nat) (dw : List Nat → List String)
    (beam : Nat) (names : List String) (encOut : List (List EncFrame))
    (encLens : List Nat) (method : String)
    (hlen : encOut.length = names.length)
    (hm : method = "greedy_search" ∨ method = "beam_search") :
    ∃ blocks,
      loggedBlocks gf bf dw method beam names encOut encLens = .ok blocks ∧
      blocks.length = names.length ∧
      ∀ i, i < names.length → blocks.getD i ("", []) =
        (names.getD i "",
          dw (decodedTokens gf bf method beam (sliceAt encOut encLens i))) := by
  have hl : loggedBlocks gf bf dw method beam names encOut encLens
      = .ok (names.zip ((((List.range encOut.length).map
          (sliceAt encOut encLens)).map
            (decodedTokens gf bf method beam)).map dw)) := by
    rw [loggedBlocks, decodeLoop_valid gf bf method beam hm]
  refine ⟨_, hl, ?_, ?_⟩
  · simp [List.length_zip, hlen]
  · intro i hi
    have h₂ : i < ((((List.range encOut.length).map
        (sliceAt encOut encLens)).map
          (decodedTokens gf bf method beam)).map dw).length := by
      simp [hlen]; omega
    rw [zip_getD _ _ i hi h₂]
    have hr : i < (List.range encOut.length).length := by simp [hlen]; omega
    rw [List.getD_eq_getElem _ _ h₂]
    simp

/-- Witness inputs for the inference-loop theorems: toy search routines,
detokenizer, file names and encoder outputs. -/
def wGf : List EncFrame → List Nat := fun e => [e.length]

def wBf : Nat → List EncFrame → List Nat := fun b _ => [b]

def wDw : List Nat → List String := fun ts => ts.map toString

def wNames : List String := ["foo.wav", "bar.wav"]

def wEncOut : List (List EncFrame) := [[[1]], [[2], [3]]]

def wEncLens : List Nat := [1, 2]

/-- Witness for C2 on a concrete two-file batch with greedy search. -/
theorem output_order_witness :
    wEncOut.length = wNames.length ∧
    ("greedy_search" = "greedy_search" ∨ "greedy_search" = "beam_search") ∧
    ∃ blocks,
      loggedBlocks wGf wBf wDw "greedy_search" 5 wNames wEncOut wEncLens
        = .ok blocks ∧
      blocks.length = wNames.length ∧
      ∀ i, i < wNames.length → blocks.getD i ("", []) =
        (wNames.getD i "",
          wDw (decodedTokens wGf wBf "greedy_search" 5
            (sliceAt wEncOut wEncLens i))) :=
  ⟨rfl, Or.inl rfl,
    output_order wGf wBf wDw 5 wNames wEncOut wEncLens "greedy_search"
      rfl (Or.inl rfl)⟩

/-- C3: for any method string other than the two supported ones, dispatch
raises the configuration error on the first utterance (the rest of the
batch is never inspected), the whole decode loop fails with that error,
and no transcript block is logged for any file. -/
theorem unsupported_method (gf : List EncFrame → List Nat)
    (bf : Nat → List EncFrame → List Nat) (dw : List Nat → List String)
    (beam : Nat) (names : List String) (encOut : List (List EncFrame))
    (encLens : List Nat) (method : String)
    (h1 : method ≠ "greedy_search") (h2 : method ≠ "beam_search")
    (hne : encOut ≠ []) :
    (∀ e es, decodeLoop gf bf method beam (e :: es)
      = .error ("Unsupported method: " ++ method)) ∧
    loggedBlocks gf bf dw method beam names encOut encLens
      = .error ("Unsupported method: " ++ method) ∧
    (loggedBlocks gf bf dw method beam names encOut encLens).toOption
      = none := by
  have hfirst : ∀ e es, decodeLoop gf bf method beam (e :: es)
      = .error ("Unsupported method: " ++ method) :=
    fun e es => decodeLoop_invalid gf bf method beam e es h1 h2
  have hlb : loggedBlocks gf bf dw method beam names encOut encLens
      = .error ("Unsupported method: " ++ method) := by
    obtain ⟨e, es, hE⟩ : ∃ e es,
        (List.range encOut.length).map (sliceAt encOut encLens)
          = e :: es := by
      cases h : (List.range encOut.length).map (sliceAt encOut encLens) with
      | nil =>
        exfalso
        have := congrArg List.length h
        simp at this
        exact hne this
      | cons a l => exact ⟨a, l, rfl⟩
    rw [loggedBlocks, hE, hfirst e es]
  exact ⟨hfirst, hlb, by rw [hlb]; rfl⟩

/-- Witness for C3 with the method string `"ctc-decoding"`. -/
theorem unsupported_method_witness :
    ("ctc-decoding" ≠ "greedy_search") ∧ ("ctc-decoding" ≠ "beam_search") ∧
    wEncOut ≠ [] ∧
    ((∀ e es, decodeLoop wGf wBf "ctc-decoding" 5 (e :: es)
      = .error ("Unsupported method: " ++ "ctc-decoding")) ∧
    loggedBlocks wGf wBf wDw "ctc-decoding" 5 wNames wEncOut wEncLens
      = .error ("Unsupported method: " ++ "ctc-decoding") ∧
    (loggedBlocks wGf wBf wDw "ctc-decoding" 5 wNames wEncOut
      wEncLens).toOption = none) :=
  ⟨by decide, by decide, by decide,
    unsupported_method wGf wBf wDw 5 wNames wEncOut wEncLens "ctc-decoding"
      (by decide) (by decide) (by decide)⟩

lemma read_sound_files_error {files : List SoundFile} {r : Nat}
    (h : ∃ f ∈ files, f.sampleRate ≠ r) :
    ∃ e, read_sound_files files r = .error e := by
  induction files with
  | nil => simp at h
  | cons f fs ih =>
    by_cases hf : f.sampleRate = r
    · obtain ⟨g, hg, hgr⟩ := h
      rcases List.mem_cons.mp hg with rfl | hg'
      · exact absurd hf hgr
      · obtain ⟨e, he⟩ := ih ⟨g, hg', hgr⟩
        refine ⟨e, ?_⟩
        rw [read_sound_files, if_pos hf, he]
    · exact ⟨_, by rw [read_sound_files, if_neg hf]⟩

lemma read_sound_files_ok {files : List SoundFile} {r : Nat}
    (h : ∀ f ∈ files, f.sampleRate = r) :
    read_sound_files files r
      = .ok (files.map (fun f => f.channels.headD [])) := by
  induction files with
  | nil => rfl
  | cons f fs ih =>
    have hf : f.sampleRate = r := h f (List.mem_cons_self f fs)
    have hrest := ih (fun g hg => h g (List.mem_cons_of_mem f hg))
    rw [read_sound_files, if_pos hf, hrest]
    rfl

/-- C4: the expected rate is the fixed 16000 Hz of `get_params`; if any
file's native sample rate differs from it, `read_sound_files` fails and
the whole `main` run aborts with an error (so no features, decoding or
output are produced); when every file matches, loading returns one
waveform per path in input order, keeping only the first channel. -/
theorem sample_rate_check (files : List SoundFile)
    (fbankF : List ℚ → List (List ℚ))
    (encF : List (List (List ℚ)) → List Nat →
      List (List EncFrame) × List Nat)
    (gf : List EncFrame → List Nat) (bf : Nat → List EncFrame → List Nat)
    (dw : List Nat → List String) (padVal : ℚ) (method : String)
    (beam : Nat) (names : List String) :
    sample_rate = 16000 ∧
    ((∃ f ∈ files, f.sampleRate ≠ sample_rate) →
      (∃ e, read_sound_files files sample_rate = .error e) ∧
      (∃ e, mainInference fbankF encF gf bf dw padVal method beam names files
        = .error e)) ∧
    ((∀ f ∈ files, f.sampleRate = sample_rate) →
      read_sound_files files sample_rate
        = .ok (files.map (fun f => f.channels.headD []))) := by
  refine ⟨rfl, fun h => ?_, fun h => read_sound_files_ok h⟩
  obtain ⟨e, he⟩ := read_sound_files_error h
  exact ⟨⟨e, he⟩, ⟨e, by rw [mainInference, he]⟩⟩

/-- Witness for C4: one 8 kHz file among the inputs. -/
theorem sample_rate_check_witness :
    (∃ f ∈ [SoundFile.mk 16000 [[1]], SoundFile.mk 8000 [[2]]],
      f.sampleRate ≠ sample_rate) ∧
    (∃ e, read_sound_files [SoundFile.mk 16000 [[1]], SoundFile.mk 8000 [[2]]]
      sample_rate = .error e) ∧
    (∃ e, mainInference (fun _ => [[0]]) (fun p l => (p, l)) wGf wBf wDw
      0 "greedy_search" 5 wNames
      [SoundFile.mk 16000 [[1]], SoundFile.mk 8000 [[2]]] = .error e) :=
  ⟨by decide,
    (sample_rate_check [SoundFile.mk 16000 [[1]], SoundFile.mk 8000 [[2]]]
      (fun _ => [[0]]) (fun p l => (p, l)) wGf wBf wDw 0 "greedy_search" 5
      wNames).2.1 (by decide)⟩

end Pretrained

namespace ComputeFbankMucs

lemma cuts_ne_feats (p q : String) : cutsFilename p ≠ featsStoragePath q := by
  intro h
  have hd : (cutsFilename p).data = (featsStoragePath q).data :=
    congrArg String.data h
  simp [cutsFilename, featsStoragePath, String.data_append] at hd

lemma cutsFilename_inj {p q : String} (h : cutsFilename p = cutsFilename q) :
    p = q := by
  have hd := congrArg String.data h
  simp [cutsFilename, String.data_append] at hd
  exact String.ext hd

lemma processPartition_skip {st : FsState} {p : String} (hx : Bool) (c : Nat)
    (h : cutsFilename p ∈ st.files) : processPartition hx c st p = st :=
  if_pos h

lemma processPartition_run {st : FsState} {p : String} (hx : Bool) (c : Nat)
    (h : cutsFilename p ∉ st.files) :
    processPartition hx c st p =
      { files := st.files ++ [featsStoragePath p, cutsFilename p]
        artifacts := st.artifacts ++
          [(cutsFilename p, persistedCutData hx c p)]
        events := st.events ++
          [.computeFeatures p (effectiveNumJobs hx c),
           .trimToSupervisions p,
           .writeArtifact (cutsFilename p)] } := by
  rw [processPartition, if_neg h]
  simp [partitionSteps, applyStep]

lemma foldl_delta (hx : Bool) (c : Nat) :
    ∀ (ps : List String) (st : FsState),
      ∃ dF dA dE,
        ps.foldl (processPartition hx c) st =
          ⟨st.files ++ dF, st.artifacts ++ dA, st.events ++ dE⟩ ∧
        (∀ q nj, Event.computeFeatures q nj ∈ dE →
          q ∈ ps ∧ cutsFilename q ∉ st.files ∧ nj = effectiveNumJobs hx c) ∧
        (∀ k x, (k, x) ∈ dA →
          ∃ q ∈ ps, k = cutsFilename q ∧ cutsFilename q ∉ st.files ∧
            x = persistedCutData hx c q) := by
  intro ps
  induction ps with
  | nil =>
    intro st
    exact ⟨[], [], [], by simp, by simp, by simp⟩
  | cons p ps ih =>
    intro st
    by_cases h : cutsFilename p ∈ st.files
    · obtain ⟨dF, dA, dE, heq, hE, hA⟩ := ih st
      refine ⟨dF, dA, dE, ?_, ?_, ?_⟩
      · rw [List.foldl_cons, processPartition_skip hx c h]
        exact heq
      · intro q nj hq
        obtain ⟨h1, h2, h3⟩ := hE q nj hq
        exact ⟨List.mem_cons_of_mem _ h1, h2, h3⟩
      · intro k x hk
        obtain ⟨q, hq, h1, h2, h3⟩ := hA k x hk
        exact ⟨q, List.mem_cons_of_mem _ hq, h1, h2, h3⟩
    · obtain ⟨dF, dA, dE, heq, hE, hA⟩ := ih (processPartition hx c st p)
      rw [processPartition_run hx c h] at heq hE hA
      dsimp only at heq hE hA
      refine ⟨[featsStoragePath p, cutsFilename p] ++ dF,
        [(cutsFilename p, persistedCutData hx c p)] ++ dA,
        [.computeFeatures p (effectiveNumJobs hx c),
         .trimToSupervisions p, .writeArtifact (cutsFilename p)] ++ dE,
        ?_, ?_, ?_⟩
      · rw [List.foldl_cons, processPartition_run hx c h, heq]
        simp
      · intro q nj hq
        rcases List.mem_append.mp hq with hq | hq
        · simp only [List.mem_cons, List.not_mem_nil, or_false] at hq
          rcases hq with hq | hq | hq
          · rw [Event.computeFeatures.injEq] at hq
            obtain ⟨rfl, rfl⟩ := hq
            exact ⟨List.mem_cons_self _ _, h, rfl⟩
          · exact absurd hq (by simp)
          · exact absurd hq (by simp)
        · obtain ⟨h1, h2, h3⟩ := hE q nj hq
          exact ⟨List.mem_cons_of_mem _ h1,
            fun hc => h2 (List.mem_append.mpr (Or.inl hc)), h3⟩
      · intro k x hk
        rcases List.mem_append.mp hk with hk | hk
        · rw [List.mem_singleton] at hk
          cases hk
          exact ⟨p, List.mem_cons_self _ _, rfl, h, rfl⟩
        · obtain ⟨q, hq, h1, h2, h3⟩ := hA k x hk
          exact ⟨q, List.mem_cons_of_mem _ hq, h1,
            fun hc => h2 (List.mem_append.mpr (Or.inl hc)), h3⟩

lemma files_mono {st : FsState} {p : String} (hx : Bool) (c : Nat)
    {x : String} (h : x ∈ st.files) :
    x ∈ (processPartition hx c st p).files := by
  by_cases hp : cutsFilename p ∈ st.files
  · rw [processPartition_skip hx c hp]; exact h
  · rw [processPartition_run hx c hp]
    exact List.mem_append.mpr (Or.inl h)

lemma cuts_mem_after {st : FsState} (hx : Bool) (c : Nat) (p : String) :
    cutsFilename p ∈ (processPartition hx c st p).files := by
  by_cases hp : cutsFilename p ∈ st.files
  · rw [processPartition_skip hx c hp]; exact hp
  · rw [processPartition_run hx c hp]
    simp

lemma foldl_files_mono (hx : Bool) (c : Nat) :
    ∀ (ps : List String) (st : FsState) (x : String), x ∈ st.files →
      x ∈ (ps.foldl (processPartition hx c) st).files := by
  intro ps
  induction ps with
  | nil => intro st x h; exact h
  | cons p ps ih =>
    intro st x h
    exact ih (processPartition hx c st p) x (files_mono hx c h)

lemma foldl_cuts_mem (hx : Bool) (c : Nat) :
    ∀ (ps : List String) (st : FsState) (p : String), p ∈ ps →
      cutsFilename p ∈ (ps.foldl (processPartition hx c) st).files := by
  intro ps
  induction ps with
  | nil => intro st p h; cases h
  | cons q ps ih =>
    intro st p h
    rcases List.mem_cons.mp h with rfl | h
    · exact foldl_files_mono hx c ps _ _ (cuts_mem_after hx c p)
    · exact ih _ p h

lemma foldl_skip_all (hx : Bool) (c : Nat) :
    ∀ (ps : List String) (st : FsState),
      (∀ p ∈ ps, cutsFilename p ∈ st.files) →
      ps.foldl (processPartition hx c) st = st := by
  intro ps
  induction ps with
  | nil => intro st _; rfl
  | cons p ps ih =>
    intro st h
    rw [List.foldl_cons,
      processPartition_skip hx c (h p (List.mem_cons_self p ps))]
    exact ih st (fun q hq => h q (List.mem_cons_of_mem p hq))

lemma processPartition_ext (hx : Bool) (c : Nat) {st₁ st₂ : FsState}
    (p : String) (hf : st₁.files = st₂.files)
    (ha : st₁.artifacts = st₂.artifacts) :
    (processPartition hx c st₁ p).files
      = (processPartition hx c st₂ p).files ∧
    (processPartition hx c st₁ p).artifacts
      = (processPartition hx c st₂ p).artifacts ∧
    ∃ d, (processPartition hx c st₁ p).events = st₁.events ++ d ∧
      (processPartition hx c st₂ p).events = st₂.events ++ d := by
  by_cases hp : cutsFilename p ∈ st₁.files
  · rw [processPartition_skip hx c hp, processPartition_skip hx c (hf ▸ hp)]
    exact ⟨hf, ha, [], by simp, by simp⟩
  · rw [processPartition_run hx c hp,
      processPartition_run hx c (fun hc => hp (hf ▸ hc))]
    exact ⟨by simp [hf], by simp [ha], _, rfl, rfl⟩

lemma foldl_ext (hx : Bool) (c : Nat) :
    ∀ (ps : List String) (st₁ st₂ : FsState),
      st₁.files = st₂.files → st₁.artifacts = st₂.artifacts →
      (ps.foldl (processPartition hx c) st₁).files
        = (ps.foldl (processPartition hx c) st₂).files ∧
      (ps.foldl (processPartition hx c) st₁).artifacts
        = (ps.foldl (processPartition hx c) st₂).artifacts ∧
      ∃ d, (ps.foldl (processPartition hx c) st₁).events
        = st₁.events ++ d ∧
        (ps.foldl (processPartition hx c) st₂).events = st₂.events ++ d := by
  intro ps
  induction ps with
  | nil =>
    intro st₁ st₂ hf ha
    exact ⟨hf, ha, [], by simp, by simp⟩
  | cons p ps ih =>
    intro st₁ st₂ hf ha
    obtain ⟨hf', ha', d₀, he₁, he₂⟩ := processPartition_ext hx c p hf ha
    obtain ⟨hF, hA, d, hd₁, hd₂⟩ :=
      ih (processPartition hx c st₁ p) (processPartition hx c st₂ p) hf' ha'
    refine ⟨hF, hA, d₀ ++ d, ?_, ?_⟩
    · rw [List.foldl_cons] at *
      rw [hd₁, he₁, List.append_assoc]
    · rw [List.foldl_cons] at *
      rw [hd₂, he₂, List.append_assoc]

lemma cf_not_mem_init (b : Option String) (p : String) (nj : Nat) :
    Event.computeFeatures p nj
      ∉ bpeEvents b ++ dataset_parts.map Event.loadManifest := by
  cases b <;> simp [bpeEvents, dataset_parts]

lemma loadManifest_mem_run (b d : Option String) (hx : Bool) (c : Nat)
    (fs : List String) (as : List (String × CutData)) (p : String)
    (hp : p ∈ dataset_parts) :
    Event.loadManifest p ∈ (compute_fbank_mucs b d hx c fs as).events := by
  obtain ⟨dF, dA, dE, heq, -, -⟩ := foldl_delta hx c dataset_parts
    ⟨fs, as, bpeEvents b ++ dataset_parts.map Event.loadManifest⟩
  rw [compute_fbank_mucs, heq]
  dsimp only
  refine List.mem_append.mpr (Or.inl (List.mem_append.mpr (Or.inr ?_)))
  exact List.mem_map_of_mem _ hp

/-- C5 counterexample to the claim as stated: when the `train` artifact
already exists, the partition is skipped (no `train` artifact is written —
only `test` and `dev` artifacts appear), yet its manifest is still loaded,
because `read_manifests_if_cached` reads the manifests of all hard-coded
partitions before any existence check. -/
theorem cache_skip_claim_counterexample :
    cutsFilename "train" ∈ [cutsFilename "train"] ∧
    Event.loadManifest "train"
      ∈ (compute_fbank_mucs none none false 4
          [cutsFilename "train"] []).events ∧
    (compute_fbank_mucs none none false 4
      [cutsFilename "train"] []).artifacts.map Prod.fst
      = [cutsFilename "test", cutsFilename "dev"] := by
  refine ⟨List.mem_singleton.mpr rfl, ?_, ?_⟩ <;> decide

/-- C5 (amended): for every partition whose artifact file exists in the
output directory, the partition's processing is skipped — no feature
computation happens for it and its artifact entry is unchanged — although
the manifests of all partitions are still loaded up front; consequently a
second run over the first run's outputs performs zero feature-computation
work and leaves files and artifacts unchanged, file existence being the
sole completion signal. -/
theorem cache_skip_idempotent (b d : Option String) (hx : Bool) (c : Nat)
    (fs : List String) (as : List (String × CutData)) :
    (∀ p, cutsFilename p ∈ fs →
      (∀ nj, Event.computeFeatures p nj
        ∉ (compute_fbank_mucs b d hx c fs as).events) ∧
      (∀ x, (cutsFilename p, x) ∈ (compute_fbank_mucs b d hx c fs as).artifacts
        ↔ (cutsFilename p, x) ∈ as)) ∧
    (∀ p ∈ dataset_parts,
      Event.loadManifest p ∈ (compute_fbank_mucs b d hx c fs as).events) ∧
    ((compute_fbank_mucs b d hx c
        (compute_fbank_mucs b d hx c fs as).files
        (compute_fbank_mucs b d hx c fs as).artifacts).files
      = (compute_fbank_mucs b d hx c fs as).files ∧
    (compute_fbank_mucs b d hx c
        (compute_fbank_mucs b d hx c fs as).files
        (compute_fbank_mucs b d hx c fs as).artifacts).artifacts
      = (compute_fbank_mucs b d hx c fs as).artifacts ∧
    ∀ p nj, Event.computeFeatures p nj
      ∉ (compute_fbank_mucs b d hx c
          (compute_fbank_mucs b d hx c fs as).files
          (compute_fbank_mucs b d hx c fs as).artifacts).events) := by
  obtain ⟨dF, dA, dE, heq, hE, hA⟩ := foldl_delta hx c dataset_parts
    ⟨fs, as, bpeEvents b ++ dataset_parts.map Event.loadManifest⟩
  have hrun : compute_fbank_mucs b d hx c fs as =
      ⟨fs ++ dF, as ++ dA,
        (bpeEvents b ++ dataset_parts.map Event.loadManifest) ++ dE⟩ := by
    rw [compute_fbank_mucs, heq]
  have hsecond : compute_fbank_mucs b d hx c
      (compute_fbank_mucs b d hx c fs as).files
      (compute_fbank_mucs b d hx c fs as).artifacts =
      ⟨(compute_fbank_mucs b d hx c fs as).files,
       (compute_fbank_mucs b d hx c fs as).artifacts,
       bpeEvents b ++ dataset_parts.map Event.loadManifest⟩ := by
    rw [compute_fbank_mucs]
    exact foldl_skip_all hx c dataset_parts _ (fun p hp => by
      rw [compute_fbank_mucs]
      exact foldl_cuts_mem hx c dataset_parts _ p hp)
  refine ⟨?_, fun p hp => loadManifest_mem_run b d hx c fs as p hp,
    ?_, ?_, ?_⟩
  · intro p hp
    constructor
    · intro nj hmem
      rw [hrun] at hmem
      dsimp only at hmem
      rcases List.mem_append.mp hmem with hm | hm
      · exact cf_not_mem_init b p nj hm
      · exact (hE p nj hm).2.1 hp
    · intro x
      constructor
      · intro hmem
        rw [hrun] at hmem
        dsimp only at hmem
        rcases List.mem_append.mp hmem with hm | hm
        · exact hm
        · obtain ⟨q, hq, hkey, hnot, hval⟩ := hA (cutsFilename p) x hm
          exact absurd (cutsFilename_inj hkey ▸ hp) hnot
      · intro hmem
        rw [hrun]
        exact List.mem_append.mpr (Or.inl hmem)
  · rw [hsecond]
  · rw [hsecond]
  · intro p nj
    rw [hsecond]
    exact cf_not_mem_init b p nj

/-- C6: the local worker-pool size is `min(48, cpu_count)` — sized by the
CPU count and capped at 48 — and with an external executor the job count
is the fixed 80, strictly larger than the local pool size for every
possible CPU count. -/
theorem worker_pool_size (c : Nat) :
    num_jobs c = min 48 c ∧
    effectiveNumJobs false c = num_jobs c ∧
    effectiveNumJobs true c = 80 ∧
    effectiveNumJobs false c < effectiveNumJobs true c := by
  refine ⟨rfl, rfl, rfl, ?_⟩
  show min 48 c < 80
  omega

/-- C7: a processed partition's persisted artifact, stored under the
expected name `<prefix>_cuts_<partition>.<suffix>`, is the cut set after
feature computation and trimming to supervision boundaries with
`keep_overlapping=False, min_duration=None, keep_all_channels=False`; the
write puts the artifact path into the file set, so a subsequent run of the
same partition skips it (the write is the completion marker). -/
theorem trim_then_persist (hx : Bool) (c : Nat) (st : FsState) (p : String)
    (h : cutsFilename p ∉ st.files) :
    (processPartition hx c st p).artifacts
      = st.artifacts ++ [(cutsFilename p,
          CutData.trimmed (CutData.withFeatures (CutData.fromManifests p)
            (featsStoragePath p) (effectiveNumJobs hx c)) false none false)] ∧
    cutsFilename p ∈ (processPartition hx c st p).files ∧
    processPartition hx c (processPartition hx c st p) p
      = processPartition hx c st p := by
  refine ⟨?_, cuts_mem_after hx c p,
    processPartition_skip hx c (cuts_mem_after hx c p)⟩
  rw [processPartition_run hx c h]
  rfl

/-- Witness for C7 on an empty output directory and partition `train`. -/
theorem trim_then_persist_witness :
    cutsFilename "train" ∉ (FsState.mk [] [] []).files ∧
    ((processPartition false 4 (FsState.mk [] [] []) "train").artifacts
      = (FsState.mk [] [] []).artifacts ++ [(cutsFilename "train",
          CutData.trimmed (CutData.withFeatures
            (CutData.fromManifests "train")
            (featsStoragePath "train") (effectiveNumJobs false 4))
            false none false)] ∧
    cutsFilename "train"
      ∈ (processPartition false 4 (FsState.mk [] [] []) "train").files ∧
    processPartition false 4
        (processPartition false 4 (FsState.mk [] [] []) "train") "train"
      = processPartition false 4 (FsState.mk [] [] []) "train") :=
  ⟨by decide, trim_then_persist false 4 ⟨[], [], []⟩ "train" (by decide)⟩

/-- C8: the `--dataset` argument is accepted but inert — two runs that
differ only in it are identical states, the enumerated partitions are the
hard-coded `train`, `test`, `dev`, and all three manifests are loaded no
matter the filter value. -/
theorem dataset_filter_inert (b d₁ d₂ : Option String) (hx : Bool) (c : Nat)
    (fs : List String) (as : List (String × CutData)) :
    compute_fbank_mucs b d₁ hx c fs as = compute_fbank_mucs b d₂ hx c fs as ∧
    dataset_parts = ["train", "test", "dev"] ∧
    ∀ p ∈ dataset_parts,
      Event.loadManifest p ∈ (compute_fbank_mucs b d₁ hx c fs as).events :=
  ⟨rfl, rfl, fun p hp => loadManifest_mem_run b d₁ hx c fs as p hp⟩

/-- C9: the `--bpe-model` argument only triggers a tokenizer load — runs
that differ only in it produce identical file sets and persisted
artifacts, and their event traces differ only in the leading tokenizer
load (no utterance-length filtering exists anywhere in the pipeline). -/
theorem bpe_model_inert (b₁ b₂ d : Option String) (hx : Bool) (c : Nat)
    (fs : List String) (as : List (String × CutData)) :
    (compute_fbank_mucs b₁ d hx c fs as).files
      = (compute_fbank_mucs b₂ d hx c fs as).files ∧
    (compute_fbank_mucs b₁ d hx c fs as).artifacts
      = (compute_fbank_mucs b₂ d hx c fs as).artifacts ∧
    (∀ b, (compute_fbank_mucs (some b) d hx c fs as).events.head?
      = some (Event.loadBpe b)) ∧
    ∃ e, (compute_fbank_mucs b₁ d hx c fs as).events = bpeEvents b₁ ++ e ∧
      (compute_fbank_mucs b₂ d hx c fs as).events = bpeEvents b₂ ++ e := by
  obtain ⟨hF, hA, d0, he₁, he₂⟩ := foldl_ext hx c dataset_parts
    ⟨fs, as, bpeEvents b₁ ++ dataset_parts.map Event.loadManifest⟩
    ⟨fs, as, bpeEvents b₂ ++ dataset_parts.map Event.loadManifest⟩ rfl rfl
  refine ⟨hF, hA, ?_,
    dataset_parts.map Event.loadManifest ++ d0, ?_, ?_⟩
  · intro b
    obtain ⟨dF, dA, dE, heq, -, -⟩ := foldl_delta hx c dataset_parts
      ⟨fs, as, bpeEvents (some b) ++ dataset_parts.map Event.loadManifest⟩
    rw [compute_fbank_mucs, heq]
    rfl
  · rw [compute_fbank_mucs, he₁]
    dsimp only
    rw [List.append_assoc]
  · rw [compute_fbank_mucs, he₂]
    dsimp only
    rw [List.append_assoc]

/-- C10: the artifact write is the last of the four body statements;
interrupting a partition's processing after any proper prefix of them
leaves the completion marker absent (even though the feature storage may
already exist), and a subsequent run takes the processing branch again —
it recomputes features, trims and finally writes the marker. -/
theorem completion_marker (hx : Bool) (c : Nat) (st : FsState) (p : String)
    (k : Nat) (hk : k < partitionSteps.length)
    (h : cutsFilename p ∉ st.files) :
    partitionSteps.getLast? = some Step.writeCuts ∧
    cutsFilename p ∉ (runStepsUpto hx c p st k).files ∧
    (processPartition hx c (runStepsUpto hx c p st k) p).events
      = (runStepsUpto hx c p st k).events ++
        [Event.computeFeatures p (effectiveNumJobs hx c),
         Event.trimToSupervisions p,
         Event.writeArtifact (cutsFilename p)] ∧
    cutsFilename p
      ∈ (processPartition hx c (runStepsUpto hx c p st k) p).files := by
  have hnm : cutsFilename p ∉ (runStepsUpto hx c p st k).files := by
    simp only [partitionSteps, List.length_cons, List.length_nil] at hk
    interval_cases k
    · exact h
    · exact h
    · simp only [runStepsUpto, partitionSteps, List.take, List.foldl,
        applyStep, List.mem_append, List.mem_singleton]
      rintro (hc | hc)
      · exact h hc
      · exact cuts_ne_feats p p hc
    · simp only [runStepsUpto, partitionSteps, List.take, List.foldl,
        applyStep, List.mem_append, List.mem_singleton]
      rintro (hc | hc)
      · exact h hc
      · exact cuts_ne_feats p p hc
  refine ⟨rfl, hnm, ?_, cuts_mem_after hx c p⟩
  rw [processPartition_run hx c hnm]

/-- Witness for C10: processing of `train` interrupted right after
feature computation (two of the four statements executed). -/
theorem completion_marker_witness :
    2 < partitionSteps.length ∧
    cutsFilename "train" ∉ (FsState.mk [] [] []).files ∧
    (partitionSteps.getLast? = some Step.writeCuts ∧
    cutsFilename "train"
      ∉ (runStepsUpto false 4 "train" (FsState.mk [] [] []) 2).files ∧
    (processPartition false 4
        (runStepsUpto false 4 "train" (FsState.mk [] [] []) 2)
        "train").events
      = (runStepsUpto false 4 "train" (FsState.mk [] [] []) 2).events ++
        [Event.computeFeatures "train" (effectiveNumJobs false 4),
         Event.trimToSupervisions "train",
         Event.writeArtifact (cutsFilename "train")] ∧
    cutsFilename "train"
      ∈ (processPartition false 4
          (runStepsUpto false 4 "train" (FsState.mk [] [] []) 2)
          "train").files) :=
  ⟨by decide, by decide,
    completion_marker false 4 ⟨[], [], []⟩ "train" 2 (by decide) (by decide)⟩

end ComputeFbankMucs
